import Mathlib

/-!
Verification of the wikitext template-expansion engine of define3
(src/bin/define.rs): the place-name parser `parse_place`, the template
dispatcher `replace_template`, and the fixed-point expansion driver built
from the regex named `re_template` together with the loop in `main`.

The embedding works on `List Char` (a Rust `&str` viewed as its character
sequence).  Recursions that are not structural in the Rust source are made
structural here through an explicit fuel argument; in every such function
one unit of fuel is consumed per character or per list element, and the
wrappers supply more fuel than any input can consume, so the fuelled
functions agree with the Rust originals on all inputs.  All definitions
are computable, so concrete runs are settled by `rfl` / `decide`.
-/

set_option maxRecDepth 10000

/-- The character sequence of a string literal. -/
def chars (s : String) : List Char := s.data

/-- ASCII upper-casing of a single character, as Rust
`u8::make_ascii_uppercase` does on a one-byte `str` slice: the 26
lowercase ASCII letters map to their uppercase forms, every other
character (including every non-ASCII character, for which the Rust code's
`get_mut(0..1)` returns `None`) is unchanged. -/
def asciiUpper (c : Char) : Char :=
  if c = 'a' then 'A'
  else if c = 'b' then 'B'
  else if c = 'c' then 'C'
  else if c = 'd' then 'D'
  else if c = 'e' then 'E'
  else if c = 'f' then 'F'
  else if c = 'g' then 'G'
  else if c = 'h' then 'H'
  else if c = 'i' then 'I'
  else if c = 'j' then 'J'
  else if c = 'k' then 'K'
  else if c = 'l' then 'L'
  else if c = 'm' then 'M'
  else if c = 'n' then 'N'
  else if c = 'o' then 'O'
  else if c = 'p' then 'P'
  else if c = 'q' then 'Q'
  else if c = 'r' then 'R'
  else if c = 's' then 'S'
  else if c = 't' then 'T'
  else if c = 'u' then 'U'
  else if c = 'v' then 'V'
  else if c = 'w' then 'W'
  else if c = 'x' then 'X'
  else if c = 'y' then 'Y'
  else if c = 'z' then 'Z'
  else c

/-- `make_ascii_titlecase` from the source: upper-case only the first
character of the string, leave the rest unchanged. -/
def make_ascii_titlecase : List Char → List Char
  | [] => []
  | c :: rest => asciiUpper c :: rest

/-- Rust `str::split(sep)` as used in the source: split on every
occurrence of the separator character, keeping empty pieces, and always
returning at least one piece. -/
def splitChar (sep : Char) : List Char → List (List Char)
  | [] => [[]]
  | c :: rest =>
    if c = sep then [] :: splitChar sep rest
    else
      match splitChar sep rest with
      | g :: gs => (c :: g) :: gs
      | [] => [[c]]

/-- The last element of a list of token lists (Rust `Iterator::last`),
with a default for the impossible empty case. -/
def lastD (d : List Char) : List (List Char) → List Char
  | [] => d
  | [g] => g
  | _ :: g :: gs => lastD d (g :: gs)

/-- Rust `[&str]::join(sep)`: concatenate the pieces with the separator
between consecutive pieces. -/
def joinWith (sep : List Char) : List (List Char) → List Char
  | [] => []
  | [g] => g
  | g :: g2 :: gs => g ++ sep ++ joinWith sep (g2 :: gs)

/-- Rust `str::starts_with(pat)`: does the pattern occur at the head of
the list?  Defined by recursion on the pattern so that an empty pattern
reduces to `true` without inspecting the other list. -/
def isPre : List Char → List Char → Bool
  | [], _ => true
  | p :: ps, l =>
    match l with
    | [] => false
    | c :: cs => (p == c) && isPre ps cs

/-- Fuelled body of Rust `str::replace(pat, rep)`: scan left to right,
replacing every non-overlapping occurrence of `pat` and continuing after
the replacement.  One unit of fuel is consumed per character, so fuel
equal to the length of the scanned list always suffices (every pattern
used by the source is non-empty). -/
def replaceListF (pat rep : List Char) : Nat → List Char → List Char
  | _, [] => []
  | 0, c :: rest => c :: rest
  | f + 1, c :: rest =>
    if isPre pat (c :: rest) then
      rep ++ replaceListF pat rep f (List.drop pat.length (c :: rest))
    else c :: replaceListF pat rep f rest

/-- Rust `str::replace(pat, rep)` (replace all occurrences). -/
def replaceList (pat rep l : List Char) : List Char :=
  replaceListF pat rep l.length l

/-- Rust `str::trim_end`: drop trailing whitespace characters. -/
def trimEndList (l : List Char) : List Char :=
  (l.reverse.dropWhile Char.isWhitespace).reverse

/-- The post-processing at the end of `parse_place`:
`result.trim_end().replace(",,", ",")`. -/
def postprocess (l : List Char) : List Char :=
  replaceList (chars ",,") (chars ",") (trimEndList l)

/-- The fragment one token of `parse_place` pushes onto the result
buffer: the branches of the Rust token-classification loop, in source
order.  `recur` is the recursive self-call of `parse_place` made by the
branch for tokens starting with `One of` (the postprocessing of that call
is inlined here because `parse_place` always ends with it). -/
def placePiece (recur : List (List Char) → List Char) (e : List Char) : List Char :=
  if e = chars "ucomm" then chars "(Unincorporated Community) "
  else if e = chars "CDP" ∨ e = chars "cdp" then chars "(Census-Designated Place) "
  else if e = chars "minor city" then chars "(Minor City) "
  else if e = chars "electoral division" then chars "(Electoral Division) "
  else if isPre (chars "seat=") e then
    chars " (Seat " ++ lastD [] (splitChar '=' e) ++ chars ")"
  else if isPre (chars "One of") e then
    postprocess (recur (splitChar ' ' (replaceList (chars ">>") [] (replaceList (chars "<<") [] e))))
  else if isPre (chars "in ") e ∨ e = chars "and" then e ++ chars " "
  else if isPre (chars "c/") e then replaceList (chars "c/") [] e
  else if isPre (chars "cc/") e then replaceList (chars "cc/") [] e
  else if isPre (chars "s/") e then replaceList (chars "s/") [] e ++ chars ", "
  else if isPre (chars "co/") e then replaceList (chars "co/") [] e ++ chars ", "
  else if isPre (chars "state/") e then
    make_ascii_titlecase (replaceList (chars "state/") [] e) ++ chars ", "
  else if isPre (chars "city/") e then
    make_ascii_titlecase (replaceList (chars "city/") [] e) ++ chars ", "
  else if isPre (chars "town/") e then
    make_ascii_titlecase (replaceList (chars "town/") [] e) ++ chars ", "
  else if isPre (chars "prefecture:") e then
    make_ascii_titlecase (replaceList (chars "Suf/") [] (replaceList (chars "prefecture:") [] e))
      ++ chars " prefecture, "
  else if isPre (chars "ar:") e then
    make_ascii_titlecase (replaceList (chars "Suf/") [] (replaceList (chars "ar:") [] e))
      ++ chars " Autonomous Region, "
  else e ++ chars " "

/-- The token loop of `parse_place`: push the fragment of each token in
order.  The recursive self-call of the Rust function (in the branch for
tokens starting with `One of`) is made structural by the fuel argument,
which also decreases along the token list; the sub-tokens of that branch
are produced by a split on a space and hence contain no space, so they
can never take the recursive branch themselves, and a recursion depth of
one level is the only depth ever reached. -/
def parse_place_goF : Nat → List (List Char) → List Char
  | 0, _ => []
  | _ + 1, [] => []
  | f + 1, e :: rest => placePiece (parse_place_goF f) e ++ parse_place_goF f rest

/-- Fuel budget for `parse_place`: far more than one unit per token and
per character of the input, hence always sufficient. -/
def parsePlaceFuel (elems : List (List Char)) : Nat :=
  2 * elems.foldr (fun e n => e.length + 1 + n) 0 + 2

/-- `parse_place` from the source: classify each token, accumulate the
emitted fragments, then trim trailing whitespace and collapse `,,`. -/
def parse_place (elems : List (List Char)) : List Char :=
  postprocess (parse_place_goF (parsePlaceFuel elems) elems)

/-- The original matched span text for template content `content`: the
content surrounded by the double-brace delimiters.  This is what
`caps.get(0)` holds in `replace_template`. -/
def spanText (content : List Char) : List Char :=
  '\x7b' :: '\x7b' :: (content ++ ['\x7d', '\x7d'])

/-- The template names carrying a dedicated arm in the `match` of
`replace_template`, in source order. -/
def recognizedNames : List (List Char) :=
  [chars ",", chars "1", chars "cap", chars "ngd", chars "unsupported",
   chars "non-gloss definition", chars "gloss", chars "alternative form of",
   chars "alt form", chars "ja-romanization of", chars "sumti", chars "ja-def",
   chars "qualifier", chars "lb", chars "q", chars "c", chars "m", chars "l",
   chars "w", chars "senseid", chars "alternative case form of",
   chars "plural of", chars "infl of", chars "syn of", chars "synonym of",
   chars "acronym of", chars "initialism of", chars "abbreviation of",
   chars "clipping of", chars "surname", chars "given name", chars "defdate",
   chars "place", chars "taxfmt", chars "alt sp"]

/-- The dispatch of `replace_template` on the split content: `name` is
`elems[0]`, `args` is `elems[1..]`.  A Rust index `elems[k]` beyond the
end of the vector is an out-of-bounds panic that aborts the process; such
a run is modelled as `none`.  Branches follow the source `match`, arms
with several patterns being expanded into one test per name. -/
def dispatch (content name : List Char) (args : List (List Char)) : Option (List Char) :=
  if name = chars "," then some (chars ",")
  else if name = chars "1" then
    match args[0]? with
    | none => none
    | some a => some (make_ascii_titlecase a)
  else if name = chars "cap" then
    match args[0]? with
    | none => none
    | some a => some (make_ascii_titlecase a)
  else if name = chars "ngd" then
    match args[0]? with
    | none => none
    | some a => some a
  else if name = chars "unsupported" then
    match args[0]? with
    | none => none
    | some a => some a
  else if name = chars "non-gloss definition" then
    match args[0]? with
    | none => none
    | some a => some a
  else if name = chars "gloss" then
    match args[0]? with
    | none => none
    | some a => some a
  else if name = chars "alternative form of" then
    match args[1]? with
    | none => none
    | some a => some (chars "Alternative form of " ++ a)
  else if name = chars "alt form" then
    match args[1]? with
    | none => none
    | some a => some (chars "Alternative form of " ++ a)
  else if name = chars "ja-romanization of" then
    match args[0]? with
    | none => none
    | some a => some (chars "Rōmaji transcription of " ++ a)
  else if name = chars "sumti" then
    match args[0]? with
    | none => none
    | some a => some (chars "x" ++ a)
  else if name = chars "ja-def" then
    match args[0]? with
    | none => none
    | some a => some (a ++ chars ":")
  else if name = chars "qualifier" then
    match args[0]? with
    | none => none
    | some a => some (chars "(" ++ a ++ chars ")")
  else if name = chars "lb" then
    match args with
    | [] => none
    | _ :: rest =>
      some (chars "(" ++ joinWith (chars ", ") (rest.filter (fun e => e ≠ chars "_")) ++ chars ")")
  else if name = chars "q" then
    match args[0]? with
    | none => none
    | some a => some (chars "(" ++ a ++ chars ")")
  else if name = chars "c" then
    match args[1]? with
    | none => none
    | some a => some a
  else if name = chars "m" then
    match args[1]? with
    | none => none
    | some a => some a
  else if name = chars "l" then
    match args[1]? with
    | none => none
    | some a => some a
  else if name = chars "w" then
    match args[1]? with
    | none => none
    | some a => some a
  else if name = chars "senseid" then some []
  else if name = chars "alternative case form of" then
    match args[1]? with
    | none => none
    | some a => some (chars "Alternative case form of " ++ a)
  else if name = chars "plural of" then
    match args[1]? with
    | none => none
    | some a => some (chars "Plural of " ++ a)
  else if name = chars "infl of" then
    match args[1]? with
    | none => none
    | some a => some (chars "Inflected form of " ++ a)
  else if name = chars "syn of" then
    match args[1]? with
    | none => none
    | some a => some (chars "Synonym of " ++ a)
  else if name = chars "synonym of" then
    match args[1]? with
    | none => none
    | some a => some (chars "Synonym of " ++ a)
  else if name = chars "acronym of" then
    match args[1]? with
    | none => none
    | some a => some (chars "Acronym of " ++ a)
  else if name = chars "initialism of" then
    match args[1]? with
    | none => none
    | some a => some (chars "Initialism of " ++ a)
  else if name = chars "abbreviation of" then
    match args[1]? with
    | none => none
    | some a => some (chars "Abbreviation of " ++ a)
  else if name = chars "clipping of" then
    match args[1]? with
    | none => none
    | some a => some (chars "Clipping of " ++ a)
  else if name = chars "surname" then some (chars "Surname")
  else if name = chars "given name" then some (chars "Given name")
  else if name = chars "defdate" then
    match args[0]? with
    | none => none
    | some a => some (chars "[" ++ a ++ chars "]")
  else if name = chars "place" then
    match args with
    | [] => none
    | _ :: rest => some (chars "(Place) " ++ parse_place rest)
  else if name = chars "taxfmt" then
    match args with
    | [] => none
    | _ :: _ => some (joinWith (chars " ") args.dropLast)
  else if name = chars "alt sp" then
    match args with
    | _ :: a2 :: a3 :: rest =>
      some (chars "Alt spelling of " ++ a2 ++ chars " "
        ++ parse_place (replaceList (chars "t=") [] a3 :: rest))
    | _ => none
  else some (spanText content)

/-- `replace_template` from the source: split the captured content of a
matched span on the bar separator and dispatch on the first piece
(`elems[0]`).  `splitChar` always returns a non-empty list, so the
`headD` / `tail` pair is exactly `elems[0]` / `elems[1..]`. -/
def replace_template (content : List Char) : Option (List Char) :=
  dispatch content ((splitChar '|' content).headD []) (splitChar '|' content).tail

/-- The matching core of the regex `re_template` applied right after an
opening double brace: lazily scan for the first closing double brace,
failing on any intervening open brace or on end of input.  On success it
returns the captured content together with the remaining input after the
closing braces. -/
def findContent : List Char → Option (List Char × List Char)
  | [] => none
  | [_] => none
  | c :: c2 :: rest =>
    if c = '\x7d' ∧ c2 = '\x7d' then some ([], rest)
    else if c = '\x7b' then none
    else (findContent (c2 :: rest)).map (fun p => (c :: p.1, p.2))

/-- Fuelled body of one `replace_all` pass of the driver: scan left to
right; at each position where an opening double brace starts a regex
match, replace the matched span by the dispatcher output and continue
after the span; everywhere else copy the character.  A panic of the
dispatcher (an out-of-bounds argument index) aborts the whole pass
(`none`).  One unit of fuel is consumed per character, so fuel equal to
the input length always suffices. -/
def expandOnceF : Nat → List Char → Option (List Char)
  | 0, l => some l
  | _ + 1, [] => some []
  | _ + 1, [c] => some [c]
  | f + 1, c :: c2 :: rest =>
    if c = '\x7b' ∧ c2 = '\x7b' then
      match findContent rest with
      | some (cont, r) =>
        match replace_template cont with
        | none => none
        | some piece => (expandOnceF f r).map (fun t => piece ++ t)
      | none => (expandOnceF f (c2 :: rest)).map (fun t => c :: t)
    else (expandOnceF f (c2 :: rest)).map (fun t => c :: t)

/-- One full pass of `re_template.replace_all` over the input. -/
def expandOnce (l : List Char) : Option (List Char) :=
  expandOnceF l.length l

/-- Fuelled count of the spans matched by one driver pass (the number of
regex matches of `re_template`). -/
def countSpansF : Nat → List Char → Nat
  | 0, _ => 0
  | _ + 1, [] => 0
  | _ + 1, [_] => 0
  | f + 1, c :: c2 :: rest =>
    if c = '\x7b' ∧ c2 = '\x7b' then
      match findContent rest with
      | some (_, r) => 1 + countSpansF f r
      | none => countSpansF f (c2 :: rest)
    else countSpansF f (c2 :: rest)

/-- The number of template spans one driver pass matches in the input. -/
def countSpans (l : List Char) : Nat :=
  countSpansF l.length l

/-- Whether the list contains two adjacent copies of the character `a`
(for `a` the open brace: whether the text contains a matchable opening
delimiter at all). -/
def hasPair (a : Char) : List Char → Bool
  | c :: c2 :: rest =>
    if c = a ∧ c2 = a then true else hasPair a (c2 :: rest)
  | _ => false

/-- Outcome of the fixed-point loop of `main`: the loop either reaches a
pass that produces no change and breaks with that value, aborts because a
pass panicked, or (in the fuelled model only) exhausts its pass budget. -/
inductive ExpandResult
  | panic
  | fuelOut
  | done (t : List Char)
deriving DecidableEq

/-- The fixed-point expansion loop of `main`, bounded by a pass budget:
run one pass; stop when the pass output equals its input, otherwise loop
on the output. -/
def expandLoop : Nat → List Char → ExpandResult
  | 0, _ => ExpandResult.fuelOut
  | n + 1, s =>
    match expandOnce s with
    | none => ExpandResult.panic
    | some s2 => if s2 = s then ExpandResult.done s else expandLoop n s2

/-! ### Membership helpers for the string operations -/

theorem mem_splitChar {sep : Char} : ∀ {l g : List Char}, g ∈ splitChar sep l → ∀ {c : Char}, c ∈ g → c ∈ l := by
  intro l
  induction l with
  | nil =>
    intro g hg c hc
    simp [splitChar] at hg
    subst hg
    simp at hc
  | cons x rest ih =>
    intro g hg c hc
    simp only [splitChar] at hg
    by_cases hx : x = sep
    · rw [if_pos hx] at hg
      rcases List.mem_cons.mp hg with h | h
      · subst h; simp at hc
      · exact List.mem_cons_of_mem _ (ih h hc)
    · rw [if_neg hx] at hg
      cases hgs : splitChar sep rest with
      | nil =>
        rw [hgs] at hg
        simp at hg
        subst hg
        simp at hc
        exact hc ▸ List.mem_cons_self _ _
      | cons g0 gs =>
        rw [hgs] at hg
        rcases List.mem_cons.mp hg with h | h
        · subst h
          rcases List.mem_cons.mp hc with h2 | h2
          · exact h2 ▸ List.mem_cons_self _ _
          · exact List.mem_cons_of_mem _ (ih (hgs ▸ List.mem_cons_self g0 gs) h2)
        · exact List.mem_cons_of_mem _ (ih (hgs ▸ List.mem_cons_of_mem _ h) hc)

theorem mem_lastD : ∀ {gs : List (List Char)} {c : Char}, c ∈ lastD [] gs → ∃ g ∈ gs, c ∈ g := by
  intro gs
  induction gs with
  | nil => intro c hc; simp [lastD] at hc
  | cons g rest ih =>
    intro c hc
    cases rest with
    | nil => exact ⟨g, List.mem_cons_self _ _, by simpa [lastD] using hc⟩
    | cons g2 rest2 =>
      simp only [lastD] at hc
      obtain ⟨g3, hg3, hcg⟩ := ih hc
      exact ⟨g3, List.mem_cons_of_mem _ hg3, hcg⟩

theorem mem_joinWith {sep : List Char} : ∀ {gs : List (List Char)} {c : Char}, c ∈ joinWith sep gs → c ∈ sep ∨ ∃ g ∈ gs, c ∈ g := by
  intro gs
  induction gs with
  | nil => intro c hc; simp [joinWith] at hc
  | cons g rest ih =>
    intro c hc
    cases rest with
    | nil => exact Or.inr ⟨g, List.mem_cons_self _ _, by simpa [joinWith] using hc⟩
    | cons g2 rest2 =>
      simp only [joinWith] at hc
      rcases List.mem_append.mp hc with h | h
      · rcases List.mem_append.mp h with h2 | h2
        · exact Or.inr ⟨g, List.mem_cons_self _ _, h2⟩
        · exact Or.inl h2
      · rcases ih h with h3 | ⟨g3, hg3, hcg⟩
        · exact Or.inl h3
        · exact Or.inr ⟨g3, List.mem_cons_of_mem _ hg3, hcg⟩

theorem mem_replaceListF {pat rep : List Char} : ∀ (f : Nat) (l : List Char) {c : Char}, c ∈ replaceListF pat rep f l → c ∈ l ∨ c ∈ rep := by
  intro f
  induction f with
  | zero =>
    intro l c hc
    cases l with
    | nil => simp [replaceListF] at hc
    | cons x rest => exact Or.inl (by simpa [replaceListF] using hc)
  | succ f ih =>
    intro l c hc
    cases l with
    | nil => simp [replaceListF] at hc
    | cons x rest =>
      simp only [replaceListF] at hc
      by_cases hp : isPre pat (x :: rest) = true
      · rw [if_pos hp] at hc
        rcases List.mem_append.mp hc with h | h
        · exact Or.inr h
        · rcases ih _ h with h2 | h2
          · exact Or.inl (List.mem_of_mem_drop h2)
          · exact Or.inr h2
      · rw [if_neg hp] at hc
        rcases List.mem_cons.mp hc with h | h
        · exact Or.inl (h ▸ List.mem_cons_self _ _)
        · rcases ih _ h with h2 | h2
          · exact Or.inl (List.mem_cons_of_mem _ h2)
          · exact Or.inr h2

theorem mem_trimEndList {l : List Char} {c : Char} (hc : c ∈ trimEndList l) : c ∈ l := by
  unfold trimEndList at hc
  rw [List.mem_reverse] at hc
  exact List.mem_reverse.mp (List.Sublist.mem hc (List.dropWhile_sublist _))

theorem asciiUpper_ne_brace {c : Char} (h : c ≠ '\x7b') : asciiUpper c ≠ '\x7b' := by
  by_cases h1 : c = 'a'
  · subst h1; decide
  by_cases h2 : c = 'b'
  · subst h2; decide
  by_cases h3 : c = 'c'
  · subst h3; decide
  by_cases h4 : c = 'd'
  · subst h4; decide
  by_cases h5 : c = 'e'
  · subst h5; decide
  by_cases h6 : c = 'f'
  · subst h6; decide
  by_cases h7 : c = 'g'
  · subst h7; decide
  by_cases h8 : c = 'h'
  · subst h8; decide
  by_cases h9 : c = 'i'
  · subst h9; decide
  by_cases h10 : c = 'j'
  · subst h10; decide
  by_cases h11 : c = 'k'
  · subst h11; decide
  by_cases h12 : c = 'l'
  · subst h12; decide
  by_cases h13 : c = 'm'
  · subst h13; decide
  by_cases h14 : c = 'n'
  · subst h14; decide
  by_cases h15 : c = 'o'
  · subst h15; decide
  by_cases h16 : c = 'p'
  · subst h16; decide
  by_cases h17 : c = 'q'
  · subst h17; decide
  by_cases h18 : c = 'r'
  · subst h18; decide
  by_cases h19 : c = 's'
  · subst h19; decide
  by_cases h20 : c = 't'
  · subst h20; decide
  by_cases h21 : c = 'u'
  · subst h21; decide
  by_cases h22 : c = 'v'
  · subst h22; decide
  by_cases h23 : c = 'w'
  · subst h23; decide
  by_cases h24 : c = 'x'
  · subst h24; decide
  by_cases h25 : c = 'y'
  · subst h25; decide
  by_cases h26 : c = 'z'
  · subst h26; decide
  unfold asciiUpper
  rw [if_neg h1, if_neg h2, if_neg h3, if_neg h4, if_neg h5, if_neg h6, if_neg h7, if_neg h8, if_neg h9, if_neg h10, if_neg h11, if_neg h12, if_neg h13, if_neg h14, if_neg h15, if_neg h16, if_neg h17, if_neg h18, if_neg h19, if_neg h20, if_neg h21, if_neg h22, if_neg h23, if_neg h24, if_neg h25, if_neg h26]
  exact h

theorem nb_app {a b : List Char} (ha : '\x7b' ∉ a) (hb : '\x7b' ∉ b) : '\x7b' ∉ a ++ b := by
  intro h
  rcases List.mem_append.mp h with h | h
  · exact ha h
  · exact hb h

theorem nb_titlecase {l : List Char} (h : '\x7b' ∉ l) : '\x7b' ∉ make_ascii_titlecase l := by
  cases l with
  | nil => simp [make_ascii_titlecase]
  | cons c rest =>
    intro hm
    rcases List.mem_cons.mp hm with h2 | h2
    · exact asciiUpper_ne_brace (fun hc => h (hc ▸ List.mem_cons_self _ _)) h2.symm
    · exact h (List.mem_cons_of_mem _ h2)

theorem nb_replaceListF {pat rep : List Char} (f : Nat) (l : List Char) (hl : '\x7b' ∉ l) (hr : '\x7b' ∉ rep) : '\x7b' ∉ replaceListF pat rep f l := by
  intro h
  rcases mem_replaceListF f l h with h2 | h2
  · exact hl h2
  · exact hr h2

theorem nb_replaceList {pat rep l : List Char} (hl : '\x7b' ∉ l) (hr : '\x7b' ∉ rep) : '\x7b' ∉ replaceList pat rep l :=
  nb_replaceListF _ _ hl hr

theorem nb_postprocess {l : List Char} (h : '\x7b' ∉ l) : '\x7b' ∉ postprocess l :=
  nb_replaceListF _ _ (fun hm => h (mem_trimEndList hm)) (by decide)

theorem nb_lastD {sep : Char} {e : List Char} (h : '\x7b' ∉ e) : '\x7b' ∉ lastD [] (splitChar sep e) := by
  intro hm
  obtain ⟨g, hg, hcg⟩ := mem_lastD hm
  exact h (mem_splitChar hg hcg)

theorem nb_placePiece {recur : List (List Char) → List Char} {e : List Char}
    (he : '\x7b' ∉ e)
    (hrec : ∀ elems, (∀ g ∈ elems, '\x7b' ∉ g) → '\x7b' ∉ recur elems) :
    '\x7b' ∉ placePiece recur e := by
  unfold placePiece
  by_cases hc1 : e = chars "ucomm"
  · rw [if_pos hc1]; decide
  rw [if_neg hc1]
  by_cases hc2 : e = chars "CDP" ∨ e = chars "cdp"
  · rw [if_pos hc2]; decide
  rw [if_neg hc2]
  by_cases hc3 : e = chars "minor city"
  · rw [if_pos hc3]; decide
  rw [if_neg hc3]
  by_cases hc4 : e = chars "electoral division"
  · rw [if_pos hc4]; decide
  rw [if_neg hc4]
  by_cases hc5 : isPre (chars "seat=") e = true
  · rw [if_pos hc5]; exact nb_app (nb_app (by decide) (nb_lastD he)) (by decide)
  rw [if_neg hc5]
  by_cases hc6 : isPre (chars "One of") e = true
  · rw [if_pos hc6]
    apply nb_postprocess
    apply hrec
    intro g hg hm
    rcases mem_replaceListF _ _ (mem_splitChar hg hm) with h2 | h2
    · rcases mem_replaceListF _ _ h2 with h3 | h3
      · exact he h3
      · simp at h3
    · simp at h2
  rw [if_neg hc6]
  by_cases hc7 : isPre (chars "in ") e = true ∨ e = chars "and"
  · rw [if_pos hc7]; exact nb_app he (by decide)
  rw [if_neg hc7]
  by_cases hc8 : isPre (chars "c/") e = true
  · rw [if_pos hc8]; exact nb_replaceList he (by decide)
  rw [if_neg hc8]
  by_cases hc9 : isPre (chars "cc/") e = true
  · rw [if_pos hc9]; exact nb_replaceList he (by decide)
  rw [if_neg hc9]
  by_cases hc10 : isPre (chars "s/") e = true
  · rw [if_pos hc10]; exact nb_app (nb_replaceList he (by decide)) (by decide)
  rw [if_neg hc10]
  by_cases hc11 : isPre (chars "co/") e = true
  · rw [if_pos hc11]; exact nb_app (nb_replaceList he (by decide)) (by decide)
  rw [if_neg hc11]
  by_cases hc12 : isPre (chars "state/") e = true
  · rw [if_pos hc12]; exact nb_app (nb_titlecase (nb_replaceList he (by decide))) (by decide)
  rw [if_neg hc12]
  by_cases hc13 : isPre (chars "city/") e = true
  · rw [if_pos hc13]; exact nb_app (nb_titlecase (nb_replaceList he (by decide))) (by decide)
  rw [if_neg hc13]
  by_cases hc14 : isPre (chars "town/") e = true
  · rw [if_pos hc14]; exact nb_app (nb_titlecase (nb_replaceList he (by decide))) (by decide)
  rw [if_neg hc14]
  by_cases hc15 : isPre (chars "prefecture:") e = true
  · rw [if_pos hc15]; exact nb_app (nb_titlecase (nb_replaceList (nb_replaceList he (by decide)) (by decide))) (by decide)
  rw [if_neg hc15]
  by_cases hc16 : isPre (chars "ar:") e = true
  · rw [if_pos hc16]; exact nb_app (nb_titlecase (nb_replaceList (nb_replaceList he (by decide)) (by decide))) (by decide)
  rw [if_neg hc16]
  exact nb_app he (by decide)

theorem nb_goF : ∀ (f : Nat) (elems : List (List Char)), (∀ e ∈ elems, '\x7b' ∉ e) → '\x7b' ∉ parse_place_goF f elems := by
  intro f
  induction f with
  | zero => intro elems _; simp [parse_place_goF]
  | succ f ih =>
    intro elems h
    cases elems with
    | nil => simp [parse_place_goF]
    | cons e rest =>
      simp only [parse_place_goF]
      exact nb_app
        (nb_placePiece (h e (List.mem_cons_self _ _)) (fun elems2 h2 => ih elems2 h2))
        (ih rest (fun e2 h2 => h e2 (List.mem_cons_of_mem _ h2)))

theorem nb_parse_place {elems : List (List Char)} (h : ∀ e ∈ elems, '\x7b' ∉ e) : '\x7b' ∉ parse_place elems :=
  nb_postprocess (nb_goF _ _ h)

theorem mem_replaceList {pat rep l : List Char} {c : Char} (h : c ∈ replaceList pat rep l) : c ∈ l ∨ c ∈ rep :=
  mem_replaceListF _ _ h

theorem dispatch_out {content name : List Char} {args : List (List Char)} {out : List Char}
    (hcontent : '\x7b' ∉ content)
    (hargs : ∀ a ∈ args, ∀ c ∈ a, c ∈ content)
    (h : dispatch content name args = some out) :
    out = spanText content ∨ '\x7b' ∉ out := by
  unfold dispatch at h
  by_cases hc1 : name = chars ","
  · rw [if_pos hc1] at h
    simp only [Option.some.injEq] at h
    subst h
    right
    decide
  rw [if_neg hc1] at h
  by_cases hc2 : name = chars "1"
  · rw [if_pos hc2] at h
    cases hk : args[0]? with
    | none => rw [hk] at h; simp at h
    | some a =>
      rw [hk] at h
      simp only [Option.some.injEq] at h
      subst h
      right
      have hb : '\x7b' ∉ a := fun hm => hcontent (hargs a (List.getElem?_mem hk) _ hm)
      exact nb_titlecase hb
  rw [if_neg hc2] at h
  by_cases hc3 : name = chars "cap"
  · rw [if_pos hc3] at h
    cases hk : args[0]? with
    | none => rw [hk] at h; simp at h
    | some a =>
      rw [hk] at h
      simp only [Option.some.injEq] at h
      subst h
      right
      have hb : '\x7b' ∉ a := fun hm => hcontent (hargs a (List.getElem?_mem hk) _ hm)
      exact nb_titlecase hb
  rw [if_neg hc3] at h
  by_cases hc4 : name = chars "ngd"
  · rw [if_pos hc4] at h
    cases hk : args[0]? with
    | none => rw [hk] at h; simp at h
    | some a =>
      rw [hk] at h
      simp only [Option.some.injEq] at h
      subst h
      right
      have hb : '\x7b' ∉ a := fun hm => hcontent (hargs a (List.getElem?_mem hk) _ hm)
      exact hb
  rw [if_neg hc4] at h
  by_cases hc5 : name = chars "unsupported"
  · rw [if_pos hc5] at h
    cases hk : args[0]? with
    | none => rw [hk] at h; simp at h
    | some a =>
      rw [hk] at h
      simp only [Option.some.injEq] at h
      subst h
      right
      have hb : '\x7b' ∉ a := fun hm => hcontent (hargs a (List.getElem?_mem hk) _ hm)
      exact hb
  rw [if_neg hc5] at h
  by_cases hc6 : name = chars "non-gloss definition"
  · rw [if_pos hc6] at h
    cases hk : args[0]? with
    | none => rw [hk] at h; simp at h
    | some a =>
      rw [hk] at h
      simp only [Option.some.injEq] at h
      subst h
      right
      have hb : '\x7b' ∉ a := fun hm => hcontent (hargs a (List.getElem?_mem hk) _ hm)
      exact hb
  rw [if_neg hc6] at h
  by_cases hc7 : name = chars "gloss"
  · rw [if_pos hc7] at h
    cases hk : args[0]? with
    | none => rw [hk] at h; simp at h
    | some a =>
      rw [hk] at h
      simp only [Option.some.injEq] at h
      subst h
      right
      have hb : '\x7b' ∉ a := fun hm => hcontent (hargs a (List.getElem?_mem hk) _ hm)
      exact hb
  rw [if_neg hc7] at h
  by_cases hc8 : name = chars "alternative form of"
  · rw [if_pos hc8] at h
    cases hk : args[1]? with
    | none => rw [hk] at h; simp at h
    | some a =>
      rw [hk] at h
      simp only [Option.some.injEq] at h
      subst h
      right
      have hb : '\x7b' ∉ a := fun hm => hcontent (hargs a (List.getElem?_mem hk) _ hm)
      exact nb_app (by decide) hb
  rw [if_neg hc8] at h
  by_cases hc9 : name = chars "alt form"
  · rw [if_pos hc9] at h
    cases hk : args[1]? with
    | none => rw [hk] at h; simp at h
    | some a =>
      rw [hk] at h
      simp only [Option.some.injEq] at h
      subst h
      right
      have hb : '\x7b' ∉ a := fun hm => hcontent (hargs a (List.getElem?_mem hk) _ hm)
      exact nb_app (by decide) hb
  rw [if_neg hc9] at h
  by_cases hc10 : name = chars "ja-romanization of"
  · rw [if_pos hc10] at h
    cases hk : args[0]? with
    | none => rw [hk] at h; simp at h
    | some a =>
      rw [hk] at h
      simp only [Option.some.injEq] at h
      subst h
      right
      have hb : '\x7b' ∉ a := fun hm => hcontent (hargs a (List.getElem?_mem hk) _ hm)
      exact nb_app (by decide) hb
  rw [if_neg hc10] at h
  by_cases hc11 : name = chars "sumti"
  · rw [if_pos hc11] at h
    cases hk : args[0]? with
    | none => rw [hk] at h; simp at h
    | some a =>
      rw [hk] at h
      simp only [Option.some.injEq] at h
      subst h
      right
      have hb : '\x7b' ∉ a := fun hm => hcontent (hargs a (List.getElem?_mem hk) _ hm)
      exact nb_app (by decide) hb
  rw [if_neg hc11] at h
  by_cases hc12 : name = chars "ja-def"
  · rw [if_pos hc12] at h
    cases hk : args[0]? with
    | none => rw [hk] at h; simp at h
    | some a =>
      rw [hk] at h
      simp only [Option.some.injEq] at h
      subst h
      right
      have hb : '\x7b' ∉ a := fun hm => hcontent (hargs a (List.getElem?_mem hk) _ hm)
      exact nb_app hb (by decide)
  rw [if_neg hc12] at h
  by_cases hc13 : name = chars "qualifier"
  · rw [if_pos hc13] at h
    cases hk : args[0]? with
    | none => rw [hk] at h; simp at h
    | some a =>
      rw [hk] at h
      simp only [Option.some.injEq] at h
      subst h
      right
      have hb : '\x7b' ∉ a := fun hm => hcontent (hargs a (List.getElem?_mem hk) _ hm)
      exact nb_app (nb_app (by decide) hb) (by decide)
  rw [if_neg hc13] at h
  by_cases hc14 : name = chars "lb"
  · rw [if_pos hc14] at h
    cases args with
    | nil => simp at h
    | cons a0 rest =>
      simp only [Option.some.injEq] at h
      subst h
      right
      refine nb_app (nb_app (by decide) ?_) (by decide)
      intro hm
      rcases mem_joinWith hm with h2 | ⟨g, hg, hcg⟩
      · exact absurd h2 (by decide)
      · exact hcontent (hargs g (List.mem_cons_of_mem _ (List.mem_of_mem_filter hg)) _ hcg)
  rw [if_neg hc14] at h
  by_cases hc15 : name = chars "q"
  · rw [if_pos hc15] at h
    cases hk : args[0]? with
    | none => rw [hk] at h; simp at h
    | some a =>
      rw [hk] at h
      simp only [Option.some.injEq] at h
      subst h
      right
      have hb : '\x7b' ∉ a := fun hm => hcontent (hargs a (List.getElem?_mem hk) _ hm)
      exact nb_app (nb_app (by decide) hb) (by decide)
  rw [if_neg hc15] at h
  by_cases hc16 : name = chars "c"
  · rw [if_pos hc16] at h
    cases hk : args[1]? with
    | none => rw [hk] at h; simp at h
    | some a =>
      rw [hk] at h
      simp only [Option.some.injEq] at h
      subst h
      right
      have hb : '\x7b' ∉ a := fun hm => hcontent (hargs a (List.getElem?_mem hk) _ hm)
      exact hb
  rw [if_neg hc16] at h
  by_cases hc17 : name = chars "m"
  · rw [if_pos hc17] at h
    cases hk : args[1]? with
    | none => rw [hk] at h; simp at h
    | some a =>
      rw [hk] at h
      simp only [Option.some.injEq] at h
      subst h
      right
      have hb : '\x7b' ∉ a := fun hm => hcontent (hargs a (List.getElem?_mem hk) _ hm)
      exact hb
  rw [if_neg hc17] at h
  by_cases hc18 : name = chars "l"
  · rw [if_pos hc18] at h
    cases hk : args[1]? with
    | none => rw [hk] at h; simp at h
    | some a =>
      rw [hk] at h
      simp only [Option.some.injEq] at h
      subst h
      right
      have hb : '\x7b' ∉ a := fun hm => hcontent (hargs a (List.getElem?_mem hk) _ hm)
      exact hb
  rw [if_neg hc18] at h
  by_cases hc19 : name = chars "w"
  · rw [if_pos hc19] at h
    cases hk : args[1]? with
    | none => rw [hk] at h; simp at h
    | some a =>
      rw [hk] at h
      simp only [Option.some.injEq] at h
      subst h
      right
      have hb : '\x7b' ∉ a := fun hm => hcontent (hargs a (List.getElem?_mem hk) _ hm)
      exact hb
  rw [if_neg hc19] at h
  by_cases hc20 : name = chars "senseid"
  · rw [if_pos hc20] at h
    simp only [Option.some.injEq] at h
    subst h
    right
    decide
  rw [if_neg hc20] at h
  by_cases hc21 : name = chars "alternative case form of"
  · rw [if_pos hc21] at h
    cases hk : args[1]? with
    | none => rw [hk] at h; simp at h
    | some a =>
      rw [hk] at h
      simp only [Option.some.injEq] at h
      subst h
      right
      have hb : '\x7b' ∉ a := fun hm => hcontent (hargs a (List.getElem?_mem hk) _ hm)
      exact nb_app (by decide) hb
  rw [if_neg hc21] at h
  by_cases hc22 : name = chars "plural of"
  · rw [if_pos hc22] at h
    cases hk : args[1]? with
    | none => rw [hk] at h; simp at h
    | some a =>
      rw [hk] at h
      simp only [Option.some.injEq] at h
      subst h
      right
      have hb : '\x7b' ∉ a := fun hm => hcontent (hargs a (List.getElem?_mem hk) _ hm)
      exact nb_app (by decide) hb
  rw [if_neg hc22] at h
  by_cases hc23 : name = chars "infl of"
  · rw [if_pos hc23] at h
    cases hk : args[1]? with
    | none => rw [hk] at h; simp at h
    | some a =>
      rw [hk] at h
      simp only [Option.some.injEq] at h
      subst h
      right
      have hb : '\x7b' ∉ a := fun hm => hcontent (hargs a (List.getElem?_mem hk) _ hm)
      exact nb_app (by decide) hb
  rw [if_neg hc23] at h
  by_cases hc24 : name = chars "syn of"
  · rw [if_pos hc24] at h
    cases hk : args[1]? with
    | none => rw [hk] at h; simp at h
    | some a =>
      rw [hk] at h
      simp only [Option.some.injEq] at h
      subst h
      right
      have hb : '\x7b' ∉ a := fun hm => hcontent (hargs a (List.getElem?_mem hk) _ hm)
      exact nb_app (by decide) hb
  rw [if_neg hc24] at h
  by_cases hc25 : name = chars "synonym of"
  · rw [if_pos hc25] at h
    cases hk : args[1]? with
    | none => rw [hk] at h; simp at h
    | some a =>
      rw [hk] at h
      simp only [Option.some.injEq] at h
      subst h
      right
      have hb : '\x7b' ∉ a := fun hm => hcontent (hargs a (List.getElem?_mem hk) _ hm)
      exact nb_app (by decide) hb
  rw [if_neg hc25] at h
  by_cases hc26 : name = chars "acronym of"
  · rw [if_pos hc26] at h
    cases hk : args[1]? with
    | none => rw [hk] at h; simp at h
    | some a =>
      rw [hk] at h
      simp only [Option.some.injEq] at h
      subst h
      right
      have hb : '\x7b' ∉ a := fun hm => hcontent (hargs a (List.getElem?_mem hk) _ hm)
      exact nb_app (by decide) hb
  rw [if_neg hc26] at h
  by_cases hc27 : name = chars "initialism of"
  · rw [if_pos hc27] at h
    cases hk : args[1]? with
    | none => rw [hk] at h; simp at h
    | some a =>
      rw [hk] at h
      simp only [Option.some.injEq] at h
      subst h
      right
      have hb : '\x7b' ∉ a := fun hm => hcontent (hargs a (List.getElem?_mem hk) _ hm)
      exact nb_app (by decide) hb
  rw [if_neg hc27] at h
  by_cases hc28 : name = chars "abbreviation of"
  · rw [if_pos hc28] at h
    cases hk : args[1]? with
    | none => rw [hk] at h; simp at h
    | some a =>
      rw [hk] at h
      simp only [Option.some.injEq] at h
      subst h
      right
      have hb : '\x7b' ∉ a := fun hm => hcontent (hargs a (List.getElem?_mem hk) _ hm)
      exact nb_app (by decide) hb
  rw [if_neg hc28] at h
  by_cases hc29 : name = chars "clipping of"
  · rw [if_pos hc29] at h
    cases hk : args[1]? with
    | none => rw [hk] at h; simp at h
    | some a =>
      rw [hk] at h
      simp only [Option.some.injEq] at h
      subst h
      right
      have hb : '\x7b' ∉ a := fun hm => hcontent (hargs a (List.getElem?_mem hk) _ hm)
      exact nb_app (by decide) hb
  rw [if_neg hc29] at h
  by_cases hc30 : name = chars "surname"
  · rw [if_pos hc30] at h
    simp only [Option.some.injEq] at h
    subst h
    right
    decide
  rw [if_neg hc30] at h
  by_cases hc31 : name = chars "given name"
  · rw [if_pos hc31] at h
    simp only [Option.some.injEq] at h
    subst h
    right
    decide
  rw [if_neg hc31] at h
  by_cases hc32 : name = chars "defdate"
  · rw [if_pos hc32] at h
    cases hk : args[0]? with
    | none => rw [hk] at h; simp at h
    | some a =>
      rw [hk] at h
      simp only [Option.some.injEq] at h
      subst h
      right
      have hb : '\x7b' ∉ a := fun hm => hcontent (hargs a (List.getElem?_mem hk) _ hm)
      exact nb_app (nb_app (by decide) hb) (by decide)
  rw [if_neg hc32] at h
  by_cases hc33 : name = chars "place"
  · rw [if_pos hc33] at h
    cases args with
    | nil => simp at h
    | cons a0 rest =>
      simp only [Option.some.injEq] at h
      subst h
      right
      refine nb_app (by decide) (nb_parse_place ?_)
      intro g hg hm
      exact hcontent (hargs g (List.mem_cons_of_mem _ hg) _ hm)
  rw [if_neg hc33] at h
  by_cases hc34 : name = chars "taxfmt"
  · rw [if_pos hc34] at h
    cases args with
    | nil => simp at h
    | cons a0 rest =>
      simp only [Option.some.injEq] at h
      subst h
      right
      intro hm
      rcases mem_joinWith hm with h2 | ⟨g, hg, hcg⟩
      · exact absurd h2 (by decide)
      · exact hcontent (hargs g (List.Sublist.mem hg (List.dropLast_sublist _)) _ hcg)
  rw [if_neg hc34] at h
  by_cases hc35 : name = chars "alt sp"
  · rw [if_pos hc35] at h
    cases args with
    | nil => simp at h
    | cons a1 args1 =>
      cases args1 with
      | nil => simp at h
      | cons a2 args2 =>
        cases args2 with
        | nil => simp at h
        | cons a3 rest =>
          simp only [Option.some.injEq] at h
          subst h
          right
          refine nb_app (nb_app (nb_app (by decide) ?_) (by decide)) (nb_parse_place ?_)
          · exact fun hm => hcontent (hargs a2 (List.mem_cons_of_mem _ (List.mem_cons_self _ _)) _ hm)
          · intro g hg hm
            rcases List.mem_cons.mp hg with hg2 | hg2
            · subst hg2
              rcases mem_replaceList hm with h3 | h3
              · exact hcontent (hargs a3 (List.mem_cons_of_mem _ (List.mem_cons_of_mem _ (List.mem_cons_self _ _))) _ h3)
              · simp at h3
            · exact hcontent (hargs g (List.mem_cons_of_mem _ (List.mem_cons_of_mem _ (List.mem_cons_of_mem _ hg2))) _ hm)
  rw [if_neg hc35] at h
  simp only [Option.some.injEq] at h
  subst h
  left
  rfl

theorem replace_template_out {content out : List Char} (hcontent : '\x7b' ∉ content)
    (h : replace_template content = some out) :
    out = spanText content ∨ '\x7b' ∉ out := by
  unfold replace_template at h
  exact dispatch_out hcontent
    (fun a ha c hcm => mem_splitChar (List.mem_of_mem_tail ha) hcm) h

/-! ### The regex matching core -/

theorem findContent_spec : ∀ (l cont r : List Char), findContent l = some (cont, r) → l = cont ++ '\x7d' :: '\x7d' :: r ∧ '\x7b' ∉ cont := by
  intro l
  induction l with
  | nil => intro cont r h; simp [findContent] at h
  | cons c tail ih =>
    intro cont r h
    cases tail with
    | nil => simp [findContent] at h
    | cons c2 rest =>
      simp only [findContent] at h
      by_cases h1 : c = '\x7d' ∧ c2 = '\x7d'
      · rw [if_pos h1] at h
        simp only [Option.some.injEq, Prod.mk.injEq] at h
        obtain ⟨hcont, hr⟩ := h
        subst hcont
        subst hr
        exact ⟨by rw [h1.1, h1.2]; rfl, by simp⟩
      · rw [if_neg h1] at h
        by_cases h2 : c = '\x7b'
        · rw [if_pos h2] at h; simp at h
        · rw [if_neg h2] at h
          rw [Option.map_eq_some'] at h
          obtain ⟨⟨p1, p2⟩, hp, hpe⟩ := h
          simp only [Prod.mk.injEq] at hpe
          obtain ⟨hpc, hpr⟩ := hpe
          subst hpc
          subst hpr
          obtain ⟨hl, hnb⟩ := ih p1 p2 hp
          constructor
          · rw [List.cons_append, ← hl]
          · intro hm
            rcases List.mem_cons.mp hm with hm2 | hm2
            · exact h2 hm2.symm
            · exact hnb hm2

theorem findContent_length {l cont r : List Char} (h : findContent l = some (cont, r)) : l.length = cont.length + 2 + r.length := by
  have hl := (findContent_spec l cont r h).1
  rw [hl]
  simp [List.length_append]
  omega

theorem findContent_complete : ∀ (cont r : List Char), '\x7b' ∉ cont → hasPair '\x7d' (cont ++ ['\x7d']) = false → findContent (cont ++ '\x7d' :: '\x7d' :: r) = some (cont, r) := by
  intro cont
  induction cont with
  | nil => intro r _ _; rfl
  | cons c cont2 ih =>
    intro r hnb hpair
    have hc_ne : c ≠ '\x7b' := fun hh => hnb (hh ▸ List.mem_cons_self _ _)
    simp only [List.cons_append] at hpair ⊢
    cases cont2 with
    | nil =>
      have hcne : c ≠ '\x7d' := by
        intro hh
        subst hh
        simp [hasPair] at hpair
      show findContent (c :: '\x7d' :: ('\x7d' :: r)) = some ([c], r)
      simp [findContent, hcne, hc_ne]
    | cons c2 cont3 =>
      simp only [List.cons_append] at hpair
      have hcc : ¬ (c = '\x7d' ∧ c2 = '\x7d') := by
        intro hh
        simp only [hasPair] at hpair
        rw [if_pos hh] at hpair
        exact Bool.true_eq_false.mp hpair
      have hpair2 : hasPair '\x7d' (c2 :: (cont3 ++ ['\x7d'])) = false := by
        simp only [hasPair] at hpair
        rwa [if_neg hcc] at hpair
      have ih2 := ih r (fun hm => hnb (List.mem_cons_of_mem _ hm))
        (by simpa only [List.cons_append] using hpair2)
      simp only [List.cons_append] at ih2
      simp only [findContent, List.append_eq]
      rw [if_neg hcc, if_neg hc_ne, ih2]
      rfl

/-! ### Driver pass lemmas -/

theorem expandOnceF_nil (f : Nat) : expandOnceF f [] = some [] := by
  cases f <;> rfl

theorem expandOnceF_one (f : Nat) (c : Char) : expandOnceF f [c] = some [c] := by
  cases f <;> rfl

theorem expandOnceF_congr : ∀ (f g : Nat) (l : List Char), l.length ≤ f → l.length ≤ g → expandOnceF f l = expandOnceF g l := by
  intro f
  induction f with
  | zero =>
    intro g l hf _
    have : l = [] := List.eq_nil_of_length_eq_zero (Nat.le_zero.mp hf)
    subst this
    rw [expandOnceF_nil, expandOnceF_nil]
  | succ f ihf =>
    intro g l hf hg
    cases l with
    | nil => rw [expandOnceF_nil, expandOnceF_nil]
    | cons c tail =>
      cases tail with
      | nil => rw [expandOnceF_one, expandOnceF_one]
      | cons c2 rest =>
        simp only [List.length_cons] at hf hg
        cases g with
        | zero => omega
        | succ g2 =>
          simp only [expandOnceF]
          by_cases hcc : c = '\x7b' ∧ c2 = '\x7b'
          · rw [if_pos hcc, if_pos hcc]
            cases hfc : findContent rest with
            | none =>
              simp only [hfc]
              rw [ihf g2 (c2 :: rest) (by simp only [List.length_cons]; omega)
                (by simp only [List.length_cons]; omega)]
            | some p =>
              obtain ⟨cont, r⟩ := p
              simp only [hfc]
              have hlen := findContent_length hfc
              cases hrt : replace_template cont with
              | none => simp only [hrt]
              | some piece =>
                simp only [hrt]
                rw [ihf g2 r (by omega) (by omega)]
          · rw [if_neg hcc, if_neg hcc]
            rw [ihf g2 (c2 :: rest) (by simp only [List.length_cons]; omega)
              (by simp only [List.length_cons]; omega)]

theorem expandOnceF_id_of_no_open : ∀ (f : Nat) (l : List Char), hasPair '\x7b' l = false → expandOnceF f l = some l := by
  intro f
  induction f with
  | zero => intro l _; rfl
  | succ f ih =>
    intro l h
    cases l with
    | nil => rfl
    | cons c tail =>
      cases tail with
      | nil => rfl
      | cons c2 rest =>
        have h2 : ¬ (c = '\x7b' ∧ c2 = '\x7b') := by
          intro hh
          simp [hasPair, hh.1, hh.2] at h
        have h3 : hasPair '\x7b' (c2 :: rest) = false := by
          simp only [hasPair] at h
          rwa [if_neg h2] at h
        simp only [expandOnceF]
        rw [if_neg h2, ih _ h3]
        rfl

theorem count_brace_true : (('\x7b' : Char) == '\x7b') = true := by decide

theorem count_rbrace_false : (('\x7d' : Char) == '\x7b') = false := by decide

theorem count_spanText (cont : List Char) : (spanText cont).count '\x7b' = cont.count '\x7b' + 2 := by
  simp [spanText, List.count_cons, List.count_append, count_brace_true, count_rbrace_false]

theorem count_brace_rest {cont r : List Char} (h0 : cont.count '\x7b' = 0) : (cont ++ '\x7d' :: '\x7d' :: r).count '\x7b' = r.count '\x7b' := by
  simp [List.count_append, List.count_cons, count_rbrace_false, h0]

theorem expandOnceF_fix_or_lt : ∀ (f : Nat) (l s2 : List Char), expandOnceF f l = some s2 → s2 = l ∨ s2.count '\x7b' < l.count '\x7b' := by
  intro f
  induction f with
  | zero =>
    intro l s2 h
    have h2 : some l = some s2 := h
    exact Or.inl (Option.some.inj h2).symm
  | succ f ih =>
    intro l s2 h
    cases l with
    | nil =>
      have h2 : some ([] : List Char) = some s2 := h
      exact Or.inl (Option.some.inj h2).symm
    | cons c tail =>
      cases tail with
      | nil =>
        have h2 : some [c] = some s2 := h
        exact Or.inl (Option.some.inj h2).symm
      | cons c2 rest =>
        simp only [expandOnceF] at h
        by_cases hcc : c = '\x7b' ∧ c2 = '\x7b'
        · rw [if_pos hcc] at h
          cases hfc : findContent rest with
          | none =>
            simp only [hfc] at h
            rw [Option.map_eq_some'] at h
            obtain ⟨t, ht, hte⟩ := h
            subst hte
            rcases ih _ _ ht with h1 | h1
            · left; rw [h1]
            · right
              simp only [List.count_cons] at h1 ⊢
              omega
          | some p =>
            obtain ⟨cont, r⟩ := p
            simp only [hfc] at h
            cases hrt : replace_template cont with
            | none => simp [hrt] at h
            | some piece =>
              simp only [hrt] at h
              rw [Option.map_eq_some'] at h
              obtain ⟨t, ht, hte⟩ := h
              subst hte
              obtain ⟨hrest, hnb⟩ := findContent_spec rest cont r hfc
              have hcont0 : cont.count '\x7b' = 0 := List.count_eq_zero.mpr hnb
              have hpiece := replace_template_out hnb hrt
              obtain ⟨hc1, hc2⟩ := hcc
              subst hc1
              subst hc2
              subst hrest
              rcases hpiece with hp | hp
              · subst hp
                rcases ih _ _ ht with h1 | h1
                · left
                  subst h1
                  simp [spanText, List.append_assoc]
                · right
                  simp only [List.count_append, List.count_cons, count_brace_true, if_true,
                    count_spanText, count_brace_rest hcont0]
                  omega
              · have hpc : piece.count '\x7b' = 0 := List.count_eq_zero.mpr hp
                right
                have hbound : t.count '\x7b' ≤ r.count '\x7b' := by
                  rcases ih _ _ ht with h1 | h1
                  · rw [h1]
                  · omega
                simp only [List.count_append, List.count_cons, count_brace_true, if_true, hpc,
                  count_brace_rest hcont0]
                omega
        · rw [if_neg hcc] at h
          rw [Option.map_eq_some'] at h
          obtain ⟨t, ht, hte⟩ := h
          subst hte
          rcases ih _ _ ht with h1 | h1
          · left; rw [h1]
          · right
            simp only [List.count_cons] at h1 ⊢
            omega

/-! ### Fixed-point loop lemmas -/

theorem expandLoop_done_fix : ∀ (n : Nat) (s t : List Char), expandLoop n s = ExpandResult.done t → expandOnce t = some t := by
  intro n
  induction n with
  | zero => intro s t h; simp [expandLoop] at h
  | succ n ih =>
    intro s t h
    simp only [expandLoop] at h
    cases hx : expandOnce s with
    | none => simp [hx] at h
    | some s2 =>
      simp only [hx] at h
      by_cases he : s2 = s
      · rw [if_pos he] at h
        simp only [ExpandResult.done.injEq] at h
        subst h
        rw [hx, he]
      · rw [if_neg he] at h
        exact ih _ _ h

theorem expandLoop_no_fuelOut : ∀ (n : Nat) (s : List Char), s.count '\x7b' < n → expandLoop n s ≠ ExpandResult.fuelOut := by
  intro n
  induction n with
  | zero => intro s h; exact absurd h (Nat.not_lt_zero _)
  | succ n ih =>
    intro s h
    simp only [expandLoop]
    cases hx : expandOnce s with
    | none => simp [hx]
    | some s2 =>
      simp only [hx]
      by_cases he : s2 = s
      · rw [if_pos he]; simp
      · rw [if_neg he]
        apply ih
        rcases expandOnceF_fix_or_lt _ _ _ hx with h1 | h1
        · exact absurd h1 he
        · omega

theorem isPre_exists : ∀ (p l : List Char), isPre p l = true → ∃ t, l = p ++ t := by
  intro p
  induction p with
  | nil => intro l _; exact ⟨l, rfl⟩
  | cons p ps ih =>
    intro l h
    cases l with
    | nil => simp [isPre] at h
    | cons c cs =>
      simp only [isPre, Bool.and_eq_true, beq_iff_eq] at h
      obtain ⟨h1, h2⟩ := h
      obtain ⟨t, ht⟩ := ih cs h2
      refine ⟨t, ?_⟩
      rw [← h1, ht]
      rfl

/-! ### Auxiliary span-step lemma for the driver -/

theorem expandOnce_span (cont r piece t : List Char)
    (h1 : '\x7b' ∉ cont) (h2 : hasPair '\x7d' (cont ++ ['\x7d']) = false)
    (hp : replace_template cont = some piece) (ht : expandOnce r = some t) :
    expandOnce ('\x7b' :: '\x7b' :: (cont ++ '\x7d' :: '\x7d' :: r)) = some (piece ++ t) := by
  have hfc := findContent_complete cont r h1 h2
  unfold expandOnce
  simp only [List.length_cons, expandOnceF]
  simp only [hfc, hp]
  simp only [and_self, if_true]
  rw [Option.map_eq_some']
  refine ⟨t, ?_, rfl⟩
  rw [expandOnceF_congr ((cont ++ '\x7d' :: '\x7d' :: r).length + 1) r.length r
    (by simp [List.length_append]; omega) (le_refl _)]
  exact ht

/-! ### Claim theorems -/

/-- C1 (code-level behaviour at the failing inputs): the dispatcher is
not total.  On a recognized name whose argument list is too short for the
positions the handler reads, the Rust code indexes past the end of
`elems` and panics, aborting the process, instead of returning the
original span text: content `qualifier` (the span of double-braced
`qualifier` with no arguments) reads `elems[1]` of a one-element vector,
and content `plural of|en` reads `elems[2]` of a two-element vector.  The
panic propagates through the whole `replace_all` pass. -/
theorem c1_dispatcher_panics_on_short_args :
    replace_template (chars "qualifier") = none
    ∧ replace_template (chars "plural of|en") = none
    ∧ expandOnce (chars "\x7b\x7bqualifier\x7d\x7d") = none :=
  ⟨rfl, rfl, rfl⟩

/-- C2: for every span content whose template name (the piece of the
content before the first bar separator) is not one of the recognized
names, `replace_template` returns the original matched span text
bit-for-bit, including the double-brace delimiters. -/
theorem c2_unrecognized_passthrough (content : List Char)
    (h : (splitChar '|' content).headD [] ∉ recognizedNames) :
    replace_template content = some (spanText content) := by
  have hne : ∀ x ∈ recognizedNames, ¬ (splitChar '|' content).headD [] = x :=
    fun x hx hh => h (hh ▸ hx)
  unfold replace_template dispatch
  repeat rw [if_neg (hne _ (by decide))]

theorem c2_unrecognized_passthrough_witness :
    ((splitChar '|' (chars "foobar|x")).headD [] ∉ recognizedNames)
    ∧ replace_template (chars "foobar|x") = some (spanText (chars "foobar|x")) :=
  ⟨by decide, c2_unrecognized_passthrough _ (by decide)⟩

/-- C3 counterexample: the claim says every span whose content contains
no double open brace is matched and dispatched.  The input consisting of
the span with content `senseid|` followed by a single open brace has
exactly such a span (its content contains one lone open brace, no pair),
and the dispatcher would map it to the empty string, yet the driver pass
leaves the input completely unchanged: the regex excludes any open brace
from the content, not merely a doubled one. -/
theorem c3_counterexample :
    replace_template (chars "senseid|\x7b") = some []
    ∧ expandOnce (chars "\x7b\x7bsenseid|\x7b\x7d\x7d") = some (chars "\x7b\x7bsenseid|\x7b\x7d\x7d") :=
  ⟨rfl, rfl⟩

/-- C3 (amended): in each pass the driver matches spans delimited by a
double open brace and the first following double close brace whose
content contains no open brace at all (not merely no doubled one) and no
earlier double close brace; every such span is split on the bar
separator, dispatched through `replace_template`, and replaced by the
dispatcher output, the scan continuing after the span. -/
theorem c3_driver_matches_brace_free_span (cont r piece t : List Char)
    (h1 : '\x7b' ∉ cont) (h2 : hasPair '\x7d' (cont ++ ['\x7d']) = false)
    (hp : replace_template cont = some piece) (ht : expandOnce r = some t) :
    expandOnce ('\x7b' :: '\x7b' :: (cont ++ '\x7d' :: '\x7d' :: r)) = some (piece ++ t) :=
  expandOnce_span cont r piece t h1 h2 hp ht

theorem c3_driver_matches_brace_free_span_witness :
    ('\x7b' ∉ chars "senseid|x")
    ∧ hasPair '\x7d' (chars "senseid|x" ++ ['\x7d']) = false
    ∧ expandOnce (chars "\x7b\x7bsenseid|x\x7d\x7dab") = some (chars "ab") :=
  ⟨by decide, by decide,
   c3_driver_matches_brace_free_span (chars "senseid|x") (chars "ab") [] (chars "ab")
     (by decide) (by decide) rfl rfl⟩

/-- C4: on any string with no adjacent pair of open braces the driver is
the identity: one pass returns the input unchanged, and the fixed-point
loop stops after that single pass, returning the input. -/
theorem c4_no_open_pair_identity (s : List Char) (h : hasPair '\x7b' s = false) :
    expandOnce s = some s ∧ ∀ n, 1 ≤ n → expandLoop n s = ExpandResult.done s := by
  have h1 : expandOnce s = some s := expandOnceF_id_of_no_open _ _ h
  refine ⟨h1, ?_⟩
  intro n hn
  cases n with
  | zero => omega
  | succ n =>
    simp only [expandLoop, h1]
    simp

theorem c4_no_open_pair_identity_witness :
    hasPair '\x7b' (chars "plain text") = false
    ∧ expandLoop 1 (chars "plain text") = ExpandResult.done (chars "plain text") :=
  ⟨by decide, (c4_no_open_pair_identity _ (by decide)).2 1 (by decide)⟩

/-- C5: whenever the fixed-point loop terminates with an output, that
output is a true fixed point: running the loop again on it (with any
positive pass budget) immediately stops and returns it unchanged. -/
theorem c5_expand_all_fixpoint (n : Nat) (s t : List Char)
    (h : expandLoop n s = ExpandResult.done t) :
    ∀ m, 1 ≤ m → expandLoop m t = ExpandResult.done t := by
  have hfix := expandLoop_done_fix n s t h
  intro m hm
  cases m with
  | zero => omega
  | succ m =>
    simp only [expandLoop, hfix]
    simp

theorem c5_expand_all_fixpoint_witness :
    expandLoop 3 (chars "\x7b\x7bqualifier|a\x7d\x7d") = ExpandResult.done (chars "(a)")
    ∧ expandLoop 1 (chars "(a)") = ExpandResult.done (chars "(a)") :=
  ⟨rfl, c5_expand_all_fixpoint 3 (chars "\x7b\x7bqualifier|a\x7d\x7d") (chars "(a)") rfl 1 (by decide)⟩

/-- C6: the fixed-point loop terminates on every finite input, acyclic or
not: with a pass budget of one more than the number of open braces in the
input, the loop never exhausts its budget — each pass either panics,
reproduces its input exactly (ending the loop), or strictly decreases the
number of open braces, because no dispatcher output for a recognized
template ever contains an open brace. -/
theorem c6_loop_terminates (s : List Char) :
    expandLoop (s.count '\x7b' + 1) s ≠ ExpandResult.fuelOut :=
  expandLoop_no_fuelOut _ _ (Nat.lt_succ_self _)

/-- C7 counterexample: on the token list of the claim, `parse_place`
does not return the single-space string the claim prescribes. -/
theorem c7_counterexample :
    parse_place [chars "state/california", chars "seat=Sacramento"]
      ≠ chars "California, (Seat Sacramento)" := by decide

/-- C7 (amended): `parse_place` on the claimed token list returns the
string with two spaces between the comma and the opening parenthesis:
the state rule emits a trailing space after its comma and the seat rule
emits its own leading space, and only trailing whitespace is trimmed. -/
theorem c7_state_seat_two_spaces :
    parse_place [chars "state/california", chars "seat=Sacramento"]
      = chars "California,  (Seat Sacramento)" := rfl

/-- C8 counterexample: the claim quantifies over every invocation of the
`lb` template, but the invocation with no arguments panics (the Rust
slice `elems[2..]` of a one-element vector is out of bounds) instead of
producing the claimed empty parenthesis pair. -/
theorem c8_counterexample :
    replace_template (chars "lb") = none
    ∧ replace_template (chars "lb") ≠ some (chars "()") :=
  ⟨rfl, by decide⟩

/-- C8 (amended): for every `lb` invocation with at least one argument
after the name, `replace_template` returns an open parenthesis, the
arguments from position 2 onward with every argument equal to a single
underscore dropped, joined by comma-space, and a close parenthesis. -/
theorem c8_lb_filters_and_joins (content a : List Char) (args : List (List Char))
    (h : splitChar '|' content = chars "lb" :: a :: args) :
    replace_template content
      = some ((chars "(" ++ joinWith (chars ", ") (args.filter (fun e => e ≠ chars "_"))) ++ chars ")") := by
  unfold replace_template
  rw [h]
  rfl

theorem c8_lb_filters_and_joins_witness :
    splitChar '|' (chars "lb|en|_|dated") = chars "lb" :: chars "en" :: [chars "_", chars "dated"]
    ∧ replace_template (chars "lb|en|_|dated") = some (chars "(dated)") := by
  constructor
  · rfl
  · rw [c8_lb_filters_and_joins (chars "lb|en|_|dated") (chars "en") [chars "_", chars "dated"] rfl]
    rfl

/-- C9 counterexample: on the token consisting of `state/` twice followed
by `x`, the code removes every occurrence of the pattern, not only the
leading prefix: it returns the upper-cased `X` with the comma (trailing
space trimmed), not the claimed string that keeps the second occurrence
intact. -/
theorem c9_counterexample :
    parse_place [chars "state/state/x"] = chars "X,"
    ∧ parse_place [chars "state/state/x"] ≠ chars "State/x," :=
  ⟨rfl, by decide⟩

/-- C9 (amended): for every place token beginning with `state/`, the
token loop emits that token with every occurrence of `state/` removed
(not only the leading one), with only its first character title-cased,
followed by comma-space, and then continues with the remaining tokens. -/
theorem c9_state_replaces_all_occurrences (f : Nat) (e : List Char) (rest : List (List Char))
    (h : isPre (chars "state/") e = true) :
    parse_place_goF (f + 1) (e :: rest)
      = (make_ascii_titlecase (replaceList (chars "state/") [] e) ++ chars ", ")
        ++ parse_place_goF f rest := by
  obtain ⟨t, ht⟩ := isPre_exists _ _ h
  subst ht
  rfl

theorem c9_state_replaces_all_occurrences_witness :
    isPre (chars "state/") (chars "state/nm") = true
    ∧ parse_place_goF 1 [chars "state/nm"]
        = (make_ascii_titlecase (replaceList (chars "state/") [] (chars "state/nm")) ++ chars ", ")
          ++ parse_place_goF 0 [] :=
  ⟨rfl, c9_state_replaces_all_occurrences 0 (chars "state/nm") [] rfl⟩

/-- C10 counterexample: a driver pass that changes the string need not
strictly decrease the number of template spans.  On the nested input
whose outer span wraps an inner `senseid` span, the pass resolves the
inner span only; the result is a different string with exactly as many
matchable spans as before (the outer span has become matchable). -/
theorem c10_counterexample :
    expandOnce (chars "\x7b\x7ba\x7b\x7bsenseid|x\x7d\x7db\x7d\x7d") = some (chars "\x7b\x7bab\x7d\x7d")
    ∧ chars "\x7b\x7bab\x7d\x7d" ≠ chars "\x7b\x7ba\x7b\x7bsenseid|x\x7d\x7db\x7d\x7d"
    ∧ countSpans (chars "\x7b\x7bab\x7d\x7d") = countSpans (chars "\x7b\x7ba\x7b\x7bsenseid|x\x7d\x7db\x7d\x7d") :=
  ⟨rfl, by decide, rfl⟩

/-- C10 (amended): the replacement the dispatcher produces for a
recognized template (on brace-free span content, which the regex
guarantees) contains no open brace — on an unrecognized name it is the
original span text — and consequently every driver pass either reproduces
its input exactly or strictly decreases the total number of open braces;
the number of matchable spans, however, need not decrease when nesting is
being resolved. -/
theorem c10_no_brace_and_decrease :
    (∀ cont out : List Char, '\x7b' ∉ cont → replace_template cont = some out →
      out = spanText cont ∨ '\x7b' ∉ out)
    ∧ (∀ s s2 : List Char, expandOnce s = some s2 →
      s2 = s ∨ s2.count '\x7b' < s.count '\x7b') :=
  ⟨fun _ _ h1 h2 => replace_template_out h1 h2,
   fun s s2 h => expandOnceF_fix_or_lt s.length s s2 h⟩

theorem c10_no_brace_and_decrease_witness :
    expandOnce (chars "\x7b\x7bsenseid|x\x7d\x7d") = some []
    ∧ (([] : List Char) = chars "\x7b\x7bsenseid|x\x7d\x7d"
       ∨ ([] : List Char).count '\x7b' < (chars "\x7b\x7bsenseid|x\x7d\x7d").count '\x7b') :=
  ⟨rfl, c10_no_brace_and_decrease.2 _ _ rfl⟩
